import Mathlib

/-!
Verification of the R2R ingestion wiring (`src/examples/basic/app.py`) and of
the ingestion-pipeline design specified in `spec.md`.

The visible source file is pure wiring: it constructs a text splitter, an
embedding pipeline, a vector database client, a worker and a web app, and
installs startup/shutdown hooks.  The chunking, batching, embedding and
upsert logic lives in collaborators that are not part of the excerpt, so
those components are modelled here from the specification; the wiring-level
behaviour (startup order, the start-once worker guard, the shutdown hook) is
embedded directly from the source.

Conventions: Python strings become `List Char`; embedding vectors become
`List Int` (their numeric content is irrelevant to every property proved
here); the remote embedding client becomes an arbitrary pure function
supplied as a parameter, reflecting its order-preserving contract.
-/

set_option autoImplicit false
set_option maxRecDepth 8000

namespace R2R

/-- Modelled from the spec: a `Chunk` as in §3 — a bounded-length substring
of a document's text together with its 0-based sequence index and its
character span `[char_start, char_end)` in the original text. -/
structure Chunk where
  document_id : String
  index : Nat
  text : List Char
  char_start : Nat
  char_end : Nat
deriving DecidableEq, Repr

/-- Modelled from the spec: the Chunker's greedy-window recursion (§4.1).
`splitChunksGo d S O fuel idx start t` consumes `t` in windows of `S`
characters, advancing the window start by `S - O` each step, until the
remainder is shorter than `S`, which becomes the final chunk (no padding; an
empty remainder yields no chunk).  `idx` and `start` are the index and
character offset of the next chunk.  `fuel` makes the recursion structural;
every caller supplies `t.length + 1`, which is sufficient because each step
shortens `t` (see `splitChunksGo_fuel_eq`-style hypotheses in the lemmas
below).  The `S ≤ O` branch is unreachable under a valid configuration
(construction rejects `O ≥ S`, see `mkPipeline`). -/
def splitChunksGo (d : String) (S O : Nat) :
    Nat → Nat → Nat → List Char → List Chunk
  | 0, _, _, _ => []
  | fuel + 1, idx, start, t =>
    if t.length < S then
      if t.isEmpty then [] else [⟨d, idx, t, start, start + t.length⟩]
    else if S ≤ O then []
    else
      ⟨d, idx, t.take S, start, start + S⟩ ::
        splitChunksGo d S O fuel (idx + 1) (start + (S - O)) (t.drop (S - O))

/-- Modelled from the spec: `split(text, chunk_size, chunk_overlap)` of §4.1,
returning the ordered chunk sequence for a document with id `d`. -/
def split (d : String) (S O : Nat) (t : List Char) : List Chunk :=
  splitChunksGo d S O (t.length + 1) 0 0 t

theorem splitChunksGo_small (d : String) (S O fuel idx start : Nat)
    (t : List Char) (h : t.length < S) :
    splitChunksGo d S O (fuel + 1) idx start t =
      if t.isEmpty then [] else [⟨d, idx, t, start, start + t.length⟩] := by
  simp [splitChunksGo, h]

theorem splitChunksGo_large (d : String) (S O fuel idx start : Nat)
    (t : List Char) (h : S ≤ t.length) (hO : O < S) :
    splitChunksGo d S O (fuel + 1) idx start t =
      ⟨d, idx, t.take S, start, start + S⟩ ::
        splitChunksGo d S O fuel (idx + 1) (start + (S - O))
          (t.drop (S - O)) := by
  simp [splitChunksGo, Nat.not_lt.mpr h, Nat.not_le.mpr hO]

theorem splitChunksGo_eq_nil_iff (d : String) (S O : Nat) (hO : O < S) :
    ∀ (fuel idx start : Nat) (t : List Char), t.length < fuel →
      (splitChunksGo d S O fuel idx start t = [] ↔ t = []) := by
  intro fuel
  match fuel with
  | 0 => intro idx start t hf; exact absurd hf (by omega)
  | fuel + 1 =>
    intro idx start t _hf
    by_cases hlt : t.length < S
    · rw [splitChunksGo_small d S O fuel idx start t hlt]
      by_cases he : t.isEmpty
      · simp [he, List.isEmpty_iff.mp he]
      · have hne : t ≠ [] := by simpa [List.isEmpty_iff] using he
        simp [he, hne]
    · rw [splitChunksGo_large d S O fuel idx start t (Nat.not_lt.mp hlt) hO]
      constructor
      · intro hc; exact absurd hc (by simp)
      · intro ht; subst ht; simp at hlt; omega

theorem splitChunksGo_get? (d : String) (S O : Nat) (hO : O < S) :
    ∀ (i fuel idx start : Nat) (t : List Char), t.length < fuel →
      i < (splitChunksGo d S O fuel idx start t).length →
        (splitChunksGo d S O fuel idx start t).get? i =
          some ⟨d, idx + i, (t.drop (i * (S - O))).take S,
            start + i * (S - O),
            start + i * (S - O) + ((t.drop (i * (S - O))).take S).length⟩ ∧
        i * (S - O) < t.length ∧
        (i + 1 < (splitChunksGo d S O fuel idx start t).length →
          S + i * (S - O) ≤ t.length) ∧
        (i + 1 = (splitChunksGo d S O fuel idx start t).length →
          t.length ≤ i * (S - O) + S) := by
  intro i
  induction i with
  | zero =>
    intro fuel idx start t hf h
    match fuel with
    | 0 => exact absurd hf (by omega)
    | fuel + 1 =>
      by_cases hlt : t.length < S
      · rw [splitChunksGo_small d S O fuel idx start t hlt] at h ⊢
        by_cases he : t.isEmpty
        · simp [he] at h
        · simp only [he, if_false]
          have hne : t ≠ [] := by simpa [List.isEmpty_iff] using he
          refine ⟨?_, ?_, ?_, ?_⟩
          · simp [List.take_of_length_le (Nat.le_of_lt hlt)]
          · simpa using List.length_pos.mpr hne
          · intro hcon; simp at hcon
          · intro _; simpa using Nat.le_of_lt hlt
      · have hge : S ≤ t.length := Nat.not_lt.mp hlt
        rw [splitChunksGo_large d S O fuel idx start t hge hO] at h ⊢
        refine ⟨?_, ?_, ?_, ?_⟩
        · simp [List.length_take, Nat.min_eq_left hge]
        · have hS : 0 < S := Nat.lt_of_le_of_lt (Nat.zero_le O) hO
          simpa using Nat.lt_of_lt_of_le hS hge
        · intro _; simpa using hge
        · intro hl
          simp only [List.length_cons, Nat.zero_add] at hl
          have hnil : splitChunksGo d S O fuel (idx + 1) (start + (S - O))
              (t.drop (S - O)) = [] := by
            cases hc : splitChunksGo d S O fuel (idx + 1) (start + (S - O))
                (t.drop (S - O)) with
            | nil => rfl
            | cons a l => rw [hc] at hl; simp at hl
          have hdf : (t.drop (S - O)).length < fuel := by
            simp only [List.length_drop]; omega
          have := (splitChunksGo_eq_nil_iff d S O hO fuel (idx + 1)
            (start + (S - O)) (t.drop (S - O)) hdf).mp hnil
          have hdl : t.length - (S - O) = 0 := by
            simpa [List.length_drop] using congrArg List.length this
          omega
  | succ i ih =>
    intro fuel idx start t hf h
    match fuel with
    | 0 => exact absurd hf (by omega)
    | fuel + 1 =>
      by_cases hlt : t.length < S
      · rw [splitChunksGo_small d S O fuel idx start t hlt] at h
        by_cases he : t.isEmpty <;> simp [he] at h
      · have hge : S ≤ t.length := Nat.not_lt.mp hlt
        rw [splitChunksGo_large d S O fuel idx start t hge hO] at h ⊢
        have hdf : (t.drop (S - O)).length < fuel := by
          simp only [List.length_drop]; omega
        have hrest : i < (splitChunksGo d S O fuel (idx + 1)
            (start + (S - O)) (t.drop (S - O))).length := by
          simpa [List.length_cons] using h
        obtain ⟨hA, hB, hC, hD⟩ := ih fuel (idx + 1) (start + (S - O))
          (t.drop (S - O)) hdf hrest
        have hm : 0 < S - O := by omega
        have hmul : (i + 1) * (S - O) = i * (S - O) + (S - O) :=
          Nat.succ_mul i (S - O)
        have hdd : (t.drop (S - O)).drop (i * (S - O)) =
            t.drop ((i + 1) * (S - O)) := by
          rw [List.drop_drop]; congr 1; omega
        have hBl : i * (S - O) < t.length - (S - O) := by
          simpa [List.length_drop] using hB
        refine ⟨?_, ?_, ?_, ?_⟩
        · rw [List.get?_cons_succ, hA]
          simp only [hdd, Option.some.injEq, Chunk.mk.injEq, true_and,
            and_true]
          refine ⟨by omega, by omega, by omega⟩
        · omega
        · intro hlen
          simp only [List.length_cons] at hlen
          have := hC (by omega)
          simp only [List.length_drop] at this
          omega
        · intro hlen
          simp only [List.length_cons] at hlen
          have := hD (by omega)
          simp only [List.length_drop] at this
          omega

example : split "d" 3 1 ("abcdefg".toList) =
    [⟨"d", 0, "abc".toList, 0, 3⟩, ⟨"d", 1, "cde".toList, 2, 5⟩,
     ⟨"d", 2, "efg".toList, 4, 7⟩, ⟨"d", 3, "g".toList, 6, 7⟩] := by decide

example : split "d" 3 1 [] = [] := by decide

theorem split_get (d : String) (S O : Nat) (t : List Char) (hO : O < S)
    (i : Nat) (h : i < (split d S O t).length) :
    (split d S O t).get ⟨i, h⟩ =
      ⟨d, i, (t.drop (i * (S - O))).take S, i * (S - O),
        i * (S - O) + ((t.drop (i * (S - O))).take S).length⟩ := by
  have hf : t.length < t.length + 1 := Nat.lt_succ_self _
  obtain ⟨hA, _, _, _⟩ := splitChunksGo_get? d S O hO i (t.length + 1) 0 0 t
    hf h
  have hsome := List.get?_eq_get h
  have hget := Option.some.inj (hsome.symm.trans hA)
  rw [hget]
  simp

/-- Claim C1: for every text, chunk size `S > 0` and overlap `O` with
`0 ≤ O < S`, the Chunker consumes the text greedily in windows of exactly
`S` characters, advancing the window start by `S - O` at each step, until
the remainder is shorter than `S`, which becomes the final chunk with no
padding: chunk `i` starts at character `i * (S - O)`, its text is the window
of (at most) `S` characters there, every chunk but the last is a full
`S`-character window, and the final chunk ends exactly at the end of the
text. -/
theorem split_greedy_windows (d : String) (S O : Nat) (t : List Char)
    (_hS : 0 < S) (hO : O < S) (i : Nat)
    (h : i < (split d S O t).length) :
    ((split d S O t).get ⟨i, h⟩).index = i ∧
    ((split d S O t).get ⟨i, h⟩).char_start = i * (S - O) ∧
    ((split d S O t).get ⟨i, h⟩).text = (t.drop (i * (S - O))).take S ∧
    ((split d S O t).get ⟨i, h⟩).char_end =
      ((split d S O t).get ⟨i, h⟩).char_start +
        ((split d S O t).get ⟨i, h⟩).text.length ∧
    (i + 1 < (split d S O t).length →
      ((split d S O t).get ⟨i, h⟩).text.length = S) ∧
    (i + 1 = (split d S O t).length →
      ((split d S O t).get ⟨i, h⟩).char_end = t.length) := by
  have hf : t.length < t.length + 1 := Nat.lt_succ_self _
  obtain ⟨_, hB, hC, hD⟩ := splitChunksGo_get? d S O hO i (t.length + 1) 0 0
    t hf h
  rw [split_get d S O t hO i h]
  refine ⟨rfl, rfl, rfl, rfl, ?_, ?_⟩
  · intro hlen
    have := hC hlen
    simp only [List.length_take, List.length_drop]
    omega
  · intro hlen
    have := hD hlen
    simp only [List.length_take, List.length_drop]
    omega

theorem split_greedy_windows_witness :
    (0 : Nat) < 3 ∧ (1 : Nat) < 3 ∧
      ((split "d" 3 1 ("abcdefg".toList)).get ⟨1, by decide⟩).text =
        (("abcdefg".toList).drop (1 * (3 - 1))).take 3 ∧
      ((split "d" 3 1 ("abcdefg".toList)).get ⟨1, by decide⟩).char_start =
        1 * (3 - 1) :=
  ⟨by decide, by decide,
    (split_greedy_windows "d" 3 1 ("abcdefg".toList) (by decide) (by decide)
      1 (by decide)).2.2.1,
    (split_greedy_windows "d" 3 1 ("abcdefg".toList) (by decide) (by decide)
      1 (by decide)).2.1⟩

theorem split_nil (d : String) (S O : Nat) : split d S O [] = [] := by
  show splitChunksGo d S O (0 + 1) 0 0 [] = []
  simp only [splitChunksGo]
  split_ifs with h1 h2 <;> simp_all

theorem split_get? (d : String) (S O : Nat) (t : List Char) (hO : O < S)
    (i : Nat) (h : i < (split d S O t).length) :
    (split d S O t).get? i =
      some ⟨d, i, (t.drop (i * (S - O))).take S, i * (S - O),
        i * (S - O) + ((t.drop (i * (S - O))).take S).length⟩ := by
  obtain ⟨hA, _, _, _⟩ := splitChunksGo_get? d S O hO i (t.length + 1) 0 0 t
    (Nat.lt_succ_self _) h
  simpa using hA

theorem split_map_index (d : String) (S O : Nat) (t : List Char)
    (hO : O < S) :
    (split d S O t).map Chunk.index = List.range (split d S O t).length := by
  apply List.ext
  intro n
  by_cases h : n < (split d S O t).length
  · rw [List.get?_map, split_get? d S O t hO n h, List.get?_range h]
    rfl
  · rw [List.get?_eq_none.mpr (by simpa using Nat.le_of_not_lt h),
      List.get?_eq_none.mpr (by simpa using Nat.le_of_not_lt h)]

theorem split_document_id (d : String) (S O : Nat) (t : List Char)
    (hO : O < S) : ∀ c ∈ split d S O t, c.document_id = d := by
  intro c hc
  obtain ⟨i, hi⟩ := List.mem_iff_get.mp hc
  rw [← hi, split_get d S O t hO i.1 i.2]

/-- Modelled from the spec: a `Document` (§3) — id, text and string
metadata, created by the caller and immutable once submitted. -/
structure Document where
  id : String
  text : List Char
  metadata : List (String × String)

/-- Modelled from the spec: the immutable pipeline configuration (§6) —
`chunk_size`, `chunk_overlap` and `embedding_batch_size` as supplied by the
configuration source (`text_splitter_config` / `embedding_config` in
`app.py`). -/
structure PipelineConfig where
  chunk_size : Nat
  chunk_overlap : Nat
  embedding_batch_size : Nat
deriving DecidableEq, Repr

/-- Modelled from the spec: the ingestion error taxonomy (§7). -/
inductive IngestError
  | invalidConfig
  | embeddingError
  | dimensionMismatch
  | storeError
deriving DecidableEq, Repr

/-- Modelled from the spec: pipeline construction validates the chunking
parameters and fails fast with `InvalidConfig` when `overlap ≥ size`
(§4.1, §7); on success the immutable configuration is returned. -/
def mkPipeline (cfg : PipelineConfig) : Except IngestError PipelineConfig :=
  if cfg.chunk_size ≤ cfg.chunk_overlap then
    Except.error IngestError.invalidConfig
  else Except.ok cfg

/-- Modelled from the spec: grouping chunks into embedding batches of size
at most `B` (§4.2).  `acc` accumulates the current batch in reverse. -/
def batchedGo {α : Type} (B : Nat) : List α → List α → List (List α)
  | acc, [] => if acc.isEmpty then [] else [acc.reverse]
  | acc, x :: xs =>
    if acc.length + 1 < B then batchedGo B (x :: acc) xs
    else (acc.reverse ++ [x]) :: batchedGo B [] xs

/-- Modelled from the spec: the ordered sequence of EmbeddingBatches for a
chunk list (§3, §4.2); a batch size of `0` is degenerate and treated as
unbatched. -/
def batched {α : Type} (B : Nat) (l : List α) : List (List α) :=
  if B = 0 then (if l.isEmpty then [] else [l]) else batchedGo B [] l

theorem batchedGo_flatten {α : Type} (B : Nat) :
    ∀ (l acc : List α), (batchedGo B acc l).flatten = acc.reverse ++ l := by
  intro l
  induction l with
  | nil =>
    intro acc
    by_cases h : acc.isEmpty
    · have : acc = [] := List.isEmpty_iff.mp h
      subst this
      simp [batchedGo]
    · simp [batchedGo, h]
  | cons x xs ih =>
    intro acc
    by_cases h : acc.length + 1 < B
    · simp [batchedGo, h, ih]
    · simp [batchedGo, h, ih]

theorem batched_flatten {α : Type} (B : Nat) (l : List α) :
    (batched B l).flatten = l := by
  by_cases hB : B = 0
  · by_cases hl : l.isEmpty
    · have : l = [] := List.isEmpty_iff.mp hl
      subst this
      simp [batched, hB]
    · simp [batched, hB, hl]
  · simp [batched, hB, batchedGo_flatten]

/-- Modelled from the spec: the persisted unit of the Vector Store (§3) —
a record keyed by `(document_id, index)` carrying the embedding vector
(numeric content modelled as `List Int`; its values are irrelevant to the
properties proved here). -/
structure CollectionRecord where
  document_id : String
  index : Nat
  vector : List Int
deriving DecidableEq, Repr

/-- Modelled from the spec: the deterministic, stable record id derived
from `(document_id, chunk.index)` (§3). -/
def recordId (r : CollectionRecord) : String × Nat := (r.document_id, r.index)

/-- Modelled from the spec: the Embedding Client contract (§6) — one call
takes an ordered sequence of texts and returns an equally long, equally
ordered sequence of vectors.  The remote model is the pure parameter `f`. -/
def clientEmbed (f : List Char → List Int) (texts : List (List Char)) :
    List (List Int) :=
  texts.map f

/-- Modelled from the spec: the records produced for one embedding batch
(§4.2) — call the client once on the batch texts and zip the returned
vectors back with the chunks in order. -/
def batchRecords (f : List Char → List Int) (b : List Chunk) :
    List CollectionRecord :=
  (b.zip (clientEmbed f (b.map Chunk.text))).map
    (fun p => ⟨p.1.document_id, p.1.index, p.2⟩)

/-- Modelled from the spec: the Chunker applied to one document (§4.2). -/
def docChunks (cfg : PipelineConfig) (doc : Document) : List Chunk :=
  split doc.id cfg.chunk_size cfg.chunk_overlap doc.text

/-- Modelled from the spec: the embedding batches of one document (§4.2). -/
def docBatches (cfg : PipelineConfig) (doc : Document) : List (List Chunk) :=
  batched cfg.embedding_batch_size (docChunks cfg doc)

/-- Modelled from the spec: the sizes of the successive Embedding Client
calls made while ingesting one document (one call per batch, §4.2). -/
def embedCallSizes (cfg : PipelineConfig) (doc : Document) : List Nat :=
  (docBatches cfg doc).map List.length

/-- Modelled from the spec: all CollectionRecords written for one document,
batch by batch in order (§4.2). -/
def docRecords (f : List Char → List Int) (cfg : PipelineConfig)
    (doc : Document) : List CollectionRecord :=
  ((docBatches cfg doc).map (batchRecords f)).flatten

/-- Modelled from the spec: idempotent upsert of a single record into the
store, keyed by `recordId` (§6): overwrite when the id is present,
append otherwise. -/
def upsertOne (s : List CollectionRecord) (r : CollectionRecord) :
    List CollectionRecord :=
  if s.any (fun x => decide (recordId x = recordId r)) then
    s.map (fun x => if recordId x = recordId r then r else x)
  else s ++ [r]

/-- Modelled from the spec: upsert of a record sequence, first to last. -/
def upsertAll (s : List CollectionRecord) (rs : List CollectionRecord) :
    List CollectionRecord :=
  rs.foldl upsertOne s

/-- Modelled from the spec: `ingest(document)` (§4.2) — chunk the text,
group into batches, embed each batch, and upsert the records into the
store; returns the new store contents. -/
def ingest (f : List Char → List Int) (cfg : PipelineConfig)
    (store : List CollectionRecord) (doc : Document) :
    List CollectionRecord :=
  upsertAll store (docRecords f cfg doc)

theorem batchRecords_eq (f : List Char → List Int) (b : List Chunk) :
    batchRecords f b =
      b.map (fun c => ⟨c.document_id, c.index, f c.text⟩) := by
  induction b with
  | nil => rfl
  | cons c b ih =>
    simp only [batchRecords, clientEmbed, List.map_cons, List.zip_cons_cons]
    simp only [batchRecords, clientEmbed] at ih
    rw [ih]

theorem flatten_map_map {α β : Type} (g : α → β) (L : List (List α)) :
    (L.map (fun b => b.map g)).flatten = L.flatten.map g := by
  induction L with
  | nil => rfl
  | cons b L ih =>
    simp only [List.map_cons, List.flatten_cons, List.map_append, ih]

theorem docRecords_eq (f : List Char → List Int) (cfg : PipelineConfig)
    (doc : Document) :
    docRecords f cfg doc = (docChunks cfg doc).map
      (fun c => ⟨c.document_id, c.index, f c.text⟩) := by
  have hb : batchRecords f =
      fun b => b.map (fun c => (⟨c.document_id, c.index, f c.text⟩ :
        CollectionRecord)) :=
    funext (batchRecords_eq f)
  rw [docRecords, hb, flatten_map_map]
  rw [show (docBatches cfg doc).flatten = docChunks cfg doc from
    batched_flatten cfg.embedding_batch_size (docChunks cfg doc)]

theorem docRecords_length (f : List Char → List Int) (cfg : PipelineConfig)
    (doc : Document) :
    (docRecords f cfg doc).length = (docChunks cfg doc).length := by
  rw [docRecords_eq]
  simp

theorem docRecords_map_index (f : List Char → List Int)
    (cfg : PipelineConfig) (doc : Document)
    (hO : cfg.chunk_overlap < cfg.chunk_size) :
    (docRecords f cfg doc).map CollectionRecord.index =
      List.range ((docChunks cfg doc).length) := by
  rw [docRecords_eq]
  rw [List.map_map]
  exact split_map_index doc.id cfg.chunk_size cfg.chunk_overlap doc.text hO

theorem docRecords_docid (f : List Char → List Int) (cfg : PipelineConfig)
    (doc : Document) (hO : cfg.chunk_overlap < cfg.chunk_size) :
    ∀ r ∈ docRecords f cfg doc, r.document_id = doc.id := by
  intro r hr
  rw [docRecords_eq] at hr
  obtain ⟨c, hc, rfl⟩ := List.mem_map.mp hr
  exact split_document_id doc.id cfg.chunk_size cfg.chunk_overlap doc.text
    hO c hc

/-- Claim C6: for every document that splits into `N` chunks, a successful
ingest writes exactly `N` CollectionRecords whose `index` fields are
`0..N-1` in increasing order matching the input chunk order, regardless of
how the chunks are grouped into embedding batches (the batch size in `cfg`
is arbitrary); every record carries the document's id. -/
theorem ingest_order_preserved (f : List Char → List Int)
    (cfg : PipelineConfig) (doc : Document)
    (hO : cfg.chunk_overlap < cfg.chunk_size) :
    (docRecords f cfg doc).length = (docChunks cfg doc).length ∧
    (docRecords f cfg doc).map CollectionRecord.index =
      List.range ((docChunks cfg doc).length) ∧
    ∀ r ∈ docRecords f cfg doc, r.document_id = doc.id :=
  ⟨docRecords_length f cfg doc, docRecords_map_index f cfg doc hO,
    docRecords_docid f cfg doc hO⟩

theorem ingest_order_preserved_witness :
    (1 : Nat) < 3 ∧
    (docRecords (fun _ => []) ⟨3, 1, 2⟩
        ⟨"d", "abcdefg".toList, []⟩).map CollectionRecord.index =
      List.range ((docChunks ⟨3, 1, 2⟩
        ⟨"d", "abcdefg".toList, []⟩).length) :=
  ⟨by decide, (ingest_order_preserved (fun _ => []) ⟨3, 1, 2⟩
    ⟨"d", "abcdefg".toList, []⟩ (by decide)).2.1⟩

/-- The store holds exactly one record with the id of `r`, namely `r`
itself: every stored record with that id equals `r`, and one is stored. -/
def storedExactly (s : List CollectionRecord) (r : CollectionRecord) :
    Prop :=
  (∀ x ∈ s, recordId x = recordId r → x = r) ∧
  ∃ x ∈ s, recordId x = recordId r

theorem map_overwrite_id (r : CollectionRecord) :
    ∀ s : List CollectionRecord, (∀ x ∈ s, recordId x = recordId r → x = r) →
      s.map (fun x => if recordId x = recordId r then r else x) = s := by
  intro s
  induction s with
  | nil => intro _; rfl
  | cons y s ih =>
    intro h
    simp only [List.map_cons]
    have hy : (if recordId y = recordId r then r else y) = y := by
      by_cases h2 : recordId y = recordId r
      · rw [if_pos h2, h y (List.mem_cons_self y s) h2]
      · rw [if_neg h2]
    rw [hy, ih (fun x hx => h x (List.mem_cons_of_mem y hx))]

theorem upsertOne_of_stored (s : List CollectionRecord)
    (r : CollectionRecord) (h : storedExactly s r) : upsertOne s r = s := by
  obtain ⟨hall, x, hx, hxid⟩ := h
  have hany : s.any (fun x => decide (recordId x = recordId r)) = true := by
    simp only [List.any_eq_true, decide_eq_true_eq]
    exact ⟨x, hx, hxid⟩
  rw [upsertOne, if_pos hany]
  exact map_overwrite_id r s hall

theorem upsertOne_stores (s : List CollectionRecord)
    (r : CollectionRecord) : storedExactly (upsertOne s r) r := by
  rw [upsertOne]
  by_cases hany : s.any (fun x => decide (recordId x = recordId r)) = true
  · rw [if_pos hany]
    constructor
    · intro x hx hid
      obtain ⟨y, hy, hyy⟩ := List.mem_map.mp hx
      by_cases h2 : recordId y = recordId r
      · rw [← hyy, if_pos h2]
      · rw [← hyy, if_neg h2] at hid
        exact absurd hid h2
    · obtain ⟨y, hy, hyid⟩ := by
        simpa only [List.any_eq_true, decide_eq_true_eq] using hany
      exact ⟨r, List.mem_map.mpr ⟨y, hy, by rw [if_pos hyid]⟩, rfl⟩
  · rw [if_neg hany]
    have hnone : ∀ x ∈ s, ¬ (recordId x = recordId r) := by
      intro x hx hid
      exact hany (by
        simp only [List.any_eq_true, decide_eq_true_eq]
        exact ⟨x, hx, hid⟩)
    constructor
    · intro x hx hid
      rcases List.mem_append.mp hx with hxs | hxr
      · exact absurd hid (hnone x hxs)
      · simpa using hxr
    · exact ⟨r, List.mem_append.mpr (Or.inr (List.mem_singleton.mpr rfl)),
        rfl⟩

theorem upsertOne_preserves (s : List CollectionRecord)
    (q r : CollectionRecord) (hne : recordId q ≠ recordId r)
    (h : storedExactly s r) : storedExactly (upsertOne s q) r := by
  obtain ⟨hall, x0, hx0, hx0id⟩ := h
  rw [upsertOne]
  by_cases hany : s.any (fun x => decide (recordId x = recordId q)) = true
  · rw [if_pos hany]
    constructor
    · intro x hx hid
      obtain ⟨y, hy, hyy⟩ := List.mem_map.mp hx
      by_cases h2 : recordId y = recordId q
      · rw [← hyy, if_pos h2] at hid
        exact absurd hid hne
      · rw [← hyy, if_neg h2] at hid ⊢
        exact hall y hy hid
    · refine ⟨if recordId x0 = recordId q then q else x0,
        List.mem_map.mpr ⟨x0, hx0, rfl⟩, ?_⟩
      rw [if_neg (fun h2 => hne (h2.symm.trans hx0id))]
      exact hx0id
  · rw [if_neg hany]
    constructor
    · intro x hx hid
      rcases List.mem_append.mp hx with hxs | hxq
      · exact hall x hxs hid
      · have : x = q := by simpa using hxq
        subst this
        exact absurd hid hne
    · exact ⟨x0, List.mem_append.mpr (Or.inl hx0), hx0id⟩

theorem upsertAll_preserves (rs : List CollectionRecord) :
    ∀ (s : List CollectionRecord) (r : CollectionRecord),
      (∀ q ∈ rs, recordId q ≠ recordId r) → storedExactly s r →
      storedExactly (upsertAll s rs) r := by
  induction rs with
  | nil => intro s r _ h; exact h
  | cons q rs ih =>
    intro s r hall h
    exact ih (upsertOne s q) r
      (fun p hp => hall p (List.mem_cons_of_mem q hp))
      (upsertOne_preserves s q r (hall q (List.mem_cons_self q rs)) h)

theorem upsertAll_stores (rs : List CollectionRecord) :
    ∀ s : List CollectionRecord,
      rs.Pairwise (fun a b => recordId a ≠ recordId b) →
      ∀ r ∈ rs, storedExactly (upsertAll s rs) r := by
  induction rs with
  | nil => intro s _ r hr; exact absurd hr (List.not_mem_nil r)
  | cons q rs ih =>
    intro s hpw r hr
    rcases List.mem_cons.mp hr with rfl | hr2
    · exact upsertAll_preserves rs (upsertOne s r) r
        (fun p hp hh => ((List.pairwise_cons.mp hpw).1 p hp) hh.symm)
        (upsertOne_stores s r)
    · exact ih (upsertOne s q) (List.pairwise_cons.mp hpw).2 r hr2

theorem upsertAll_fixpoint (rs : List CollectionRecord) :
    ∀ s : List CollectionRecord, (∀ r ∈ rs, storedExactly s r) →
      upsertAll s rs = s := by
  induction rs with
  | nil => intro s _; rfl
  | cons q rs ih =>
    intro s h
    have h1 : upsertOne s q = s :=
      upsertOne_of_stored s q (h q (List.mem_cons_self q rs))
    show upsertAll (upsertOne s q) rs = s
    rw [h1]
    exact ih s (fun r hr => h r (List.mem_cons_of_mem q hr))

theorem upsertOne_fresh (s : List CollectionRecord) (r : CollectionRecord)
    (h : ∀ x ∈ s, recordId x ≠ recordId r) : upsertOne s r = s ++ [r] := by
  rw [upsertOne, if_neg]
  simp only [List.any_eq_true, decide_eq_true_eq, not_exists]
  intro x hx
  exact h x hx.1 hx.2

theorem upsertAll_fresh_append :
    ∀ (rs s : List CollectionRecord),
      (∀ r ∈ rs, ∀ x ∈ s, recordId x ≠ recordId r) →
      rs.Pairwise (fun a b => recordId a ≠ recordId b) →
      upsertAll s rs = s ++ rs := by
  intro rs
  induction rs with
  | nil => intro s _ _; simp [upsertAll]
  | cons r rs ih =>
    intro s hfresh hpw
    have h1 : upsertOne s r = s ++ [r] :=
      upsertOne_fresh s r (hfresh r (List.mem_cons_self r rs))
    show upsertAll (upsertOne s r) rs = s ++ r :: rs
    rw [h1]
    rw [ih (s ++ [r]) ?_ (List.pairwise_cons.mp hpw).2]
    · simp
    · intro q hq x hx
      rcases List.mem_append.mp hx with hxs | hxr
      · exact hfresh q (List.mem_cons_of_mem r hq) x hxs
      · have : x = r := by simpa using hxr
        subst this
        exact (List.pairwise_cons.mp hpw).1 q hq

theorem docRecords_pairwise_ne (f : List Char → List Int)
    (cfg : PipelineConfig) (doc : Document)
    (hO : cfg.chunk_overlap < cfg.chunk_size) :
    (docRecords f cfg doc).Pairwise
      (fun a b => recordId a ≠ recordId b) := by
  have hidx := docRecords_map_index f cfg doc hO
  have hpw : ((docRecords f cfg doc).map CollectionRecord.index).Pairwise
      (· < ·) := by
    rw [hidx]
    exact List.pairwise_lt_range _
  have hpw2 := (List.pairwise_map).mp hpw
  exact hpw2.imp (fun {a b} hlt heq =>
    absurd (congrArg Prod.snd heq) (Nat.ne_of_lt hlt))

/-- Claim C5: ingesting the same Document twice produces the same set of
CollectionRecord ids in the store, and the second ingestion overwrites
rather than duplicates, so the store's contents — in particular its record
count — are unchanged after the second run. -/
theorem ingest_idempotent (f : List Char → List Int)
    (cfg : PipelineConfig) (store : List CollectionRecord) (doc : Document)
    (hO : cfg.chunk_overlap < cfg.chunk_size) :
    ingest f cfg (ingest f cfg store doc) doc = ingest f cfg store doc ∧
    (ingest f cfg (ingest f cfg store doc) doc).map recordId =
      (ingest f cfg store doc).map recordId ∧
    (ingest f cfg (ingest f cfg store doc) doc).length =
      (ingest f cfg store doc).length := by
  have hpw := docRecords_pairwise_ne f cfg doc hO
  have hstored := upsertAll_stores (docRecords f cfg doc) store hpw
  have hfix := upsertAll_fixpoint (docRecords f cfg doc)
    (upsertAll store (docRecords f cfg doc)) hstored
  exact ⟨hfix, congrArg (List.map recordId) hfix,
    congrArg List.length hfix⟩

theorem ingest_idempotent_witness :
    ingest (fun _ => []) ⟨3, 1, 2⟩
        (ingest (fun _ => []) ⟨3, 1, 2⟩ [] ⟨"d", "abcde".toList, []⟩)
        ⟨"d", "abcde".toList, []⟩ =
      ingest (fun _ => []) ⟨3, 1, 2⟩ [] ⟨"d", "abcde".toList, []⟩ :=
  (ingest_idempotent (fun _ => []) ⟨3, 1, 2⟩ [] ⟨"d", "abcde".toList, []⟩
    (by decide)).1

/-- Claim C8: if `chunk_overlap ≥ chunk_size`, construction fails fast
with `InvalidConfig` (the error is raised at pipeline construction; a valid
configuration constructs successfully, so no per-document runtime error
exists); and splitting empty text returns an empty chunk sequence. -/
theorem invalid_config_fail_fast (cfg : PipelineConfig) (d : String)
    (S O : Nat) :
    (cfg.chunk_size ≤ cfg.chunk_overlap →
      mkPipeline cfg = Except.error IngestError.invalidConfig) ∧
    (cfg.chunk_overlap < cfg.chunk_size →
      mkPipeline cfg = Except.ok cfg) ∧
    split d S O [] = [] := by
  refine ⟨?_, ?_, split_nil d S O⟩
  · intro h
    rw [mkPipeline, if_pos h]
  · intro h
    rw [mkPipeline, if_neg (Nat.not_le.mpr h)]

theorem invalid_config_fail_fast_witness :
    mkPipeline ⟨2, 5, 1⟩ = Except.error IngestError.invalidConfig ∧
    mkPipeline ⟨5, 2, 1⟩ = Except.ok ⟨5, 2, 1⟩ ∧
    split "d" 5 2 [] = [] :=
  ⟨(invalid_config_fail_fast ⟨2, 5, 1⟩ "d" 5 2).1 (by decide),
    (invalid_config_fail_fast ⟨5, 2, 1⟩ "d" 5 2).2.1 (by decide),
    (invalid_config_fail_fast ⟨5, 2, 1⟩ "d" 5 2).2.2⟩

/-- Claim C9: the Chunker is deterministic and pure — it is a function of
`(text, chunk_size, chunk_overlap)` alone, so for all texts and valid
parameters, two calls on identical input yield identical (byte-identical)
chunk sequences; purity holds by construction, the model having no state
to mutate. -/
theorem split_deterministic (d : String) (S O : Nat) (t1 t2 : List Char)
    (_hO : O < S) (ht : t1 = t2) : split d S O t1 = split d S O t2 := by
  rw [ht]

theorem split_deterministic_witness :
    split "d" 3 1 ("ab".toList) = split "d" 3 1 ("ab".toList) :=
  split_deterministic "d" 3 1 ("ab".toList) ("ab".toList) (by decide) rfl

theorem splitChunksGo_small2 (d : String) (S O fuel idx start : Nat)
    (t : List Char) (h : t.length < S) (hf : 0 < fuel) :
    splitChunksGo d S O fuel idx start t =
      if t.isEmpty then [] else [⟨d, idx, t, start, start + t.length⟩] := by
  match fuel with
  | 0 => exact absurd hf (by omega)
  | fuel + 1 => exact splitChunksGo_small d S O fuel idx start t h

theorem splitChunksGo_large2 (d : String) (S O fuel idx start : Nat)
    (t : List Char) (h : S ≤ t.length) (hO : O < S) (hf : 0 < fuel) :
    splitChunksGo d S O fuel idx start t =
      ⟨d, idx, t.take S, start, start + S⟩ ::
        splitChunksGo d S O (fuel - 1) (idx + 1) (start + (S - O))
          (t.drop (S - O)) := by
  match fuel with
  | 0 => exact absurd hf (by omega)
  | fuel + 1 => simpa using splitChunksGo_large d S O fuel idx start t h hO

theorem split_250 (d : String) (t : List Char) (ht : t.length = 250) :
    split d 100 20 t =
      [⟨d, 0, t.take 100, 0, 100⟩,
       ⟨d, 1, (t.drop 80).take 100, 80, 180⟩,
       ⟨d, 2, t.drop 160, 160, 250⟩] := by
  have h1 : (t.drop 80).length = 170 := by
    simp [List.length_drop, ht]
  have h2 : (t.drop 160).length = 90 := by
    simp [List.length_drop, ht]
  have hne : ¬ (t.drop 160).isEmpty = true := by
    simp [List.isEmpty_iff, ← List.length_eq_zero, h2]
  show splitChunksGo d 100 20 (t.length + 1) 0 0 t = _
  rw [splitChunksGo_large2 d 100 20 (t.length + 1) 0 0 t (by omega)
    (by omega) (by omega)]
  norm_num
  rw [splitChunksGo_large2 d 100 20 t.length 1 80 (t.drop 80)
    (by omega) (by omega) (by omega)]
  norm_num
  rw [splitChunksGo_small2 d 100 20 (t.length - 1) 2 160
    (t.drop 160) (by omega) (by omega)]
  rw [if_neg hne]
  simp [h2]

/-- Claim C2: for a document whose text is exactly 250 characters, with
`chunk_size = 100` and `chunk_overlap = 20`, splitting produces exactly 3
chunks at character ranges `[0,100)`, `[80,180)`, `[160,250)`; with
`embedding_batch_size = 2`, ingesting the document makes exactly two
Embedding Client calls of batch sizes 2 and 1, and upserts exactly 3
CollectionRecords whose ids derive from `(document_id, 0)`,
`(document_id, 1)` and `(document_id, 2)`. -/
theorem concrete_250_document (f : List Char → List Int) (doc : Document)
    (h250 : doc.text.length = 250) :
    (docChunks ⟨100, 20, 2⟩ doc).length = 3 ∧
    (docChunks ⟨100, 20, 2⟩ doc).map
        (fun c => (c.char_start, c.char_end)) =
      [(0, 100), (80, 180), (160, 250)] ∧
    embedCallSizes ⟨100, 20, 2⟩ doc = [2, 1] ∧
    (embedCallSizes ⟨100, 20, 2⟩ doc).length = 2 ∧
    (ingest f ⟨100, 20, 2⟩ [] doc).map recordId =
      [(doc.id, 0), (doc.id, 1), (doc.id, 2)] ∧
    (ingest f ⟨100, 20, 2⟩ [] doc).length = 3 := by
  have hchunks : docChunks ⟨100, 20, 2⟩ doc =
      [⟨doc.id, 0, doc.text.take 100, 0, 100⟩,
       ⟨doc.id, 1, (doc.text.drop 80).take 100, 80, 180⟩,
       ⟨doc.id, 2, doc.text.drop 160, 160, 250⟩] :=
    split_250 doc.id doc.text h250
  have hrec : docRecords f ⟨100, 20, 2⟩ doc =
      [⟨doc.id, 0, f (doc.text.take 100)⟩,
       ⟨doc.id, 1, f ((doc.text.drop 80).take 100)⟩,
       ⟨doc.id, 2, f (doc.text.drop 160)⟩] := by
    rw [docRecords_eq, hchunks]
    rfl
  have hing : ingest f ⟨100, 20, 2⟩ [] doc =
      docRecords f ⟨100, 20, 2⟩ doc := by
    show upsertAll [] (docRecords f ⟨100, 20, 2⟩ doc) = _
    rw [upsertAll_fresh_append (docRecords f ⟨100, 20, 2⟩ doc) []
      (fun r _ x hx => absurd hx (List.not_mem_nil x))
      (docRecords_pairwise_ne f ⟨100, 20, 2⟩ doc (by decide))]
    rfl
  refine ⟨by rw [hchunks]; rfl, by rw [hchunks]; rfl, ?_, ?_, ?_, ?_⟩
  · show (docBatches ⟨100, 20, 2⟩ doc).map List.length = [2, 1]
    rw [show docBatches ⟨100, 20, 2⟩ doc =
      batched 2 (docChunks ⟨100, 20, 2⟩ doc) from rfl, hchunks]
    rfl
  · show ((docBatches ⟨100, 20, 2⟩ doc).map List.length).length = 2
    rw [show docBatches ⟨100, 20, 2⟩ doc =
      batched 2 (docChunks ⟨100, 20, 2⟩ doc) from rfl, hchunks]
    rfl
  · rw [hing, hrec]
    rfl
  · rw [hing, hrec]
    rfl

theorem concrete_250_document_witness :
    (List.replicate 250 'a').length = 250 ∧
    embedCallSizes ⟨100, 20, 2⟩ ⟨"doc", List.replicate 250 'a', []⟩ =
      [2, 1] :=
  ⟨by simp [List.length_replicate],
    (concrete_250_document (fun _ => [])
      ⟨"doc", List.replicate 250 'a', []⟩
      (by simp [List.length_replicate])).2.2.1⟩

/-- Worker-thread state of the wiring script: `thread` is the memoized
`thread` attribute set on the `start_worker_thread` closure
(`app.py:101-110`), `started` logs every thread ever created and started,
and `next` supplies fresh thread identifiers. -/
structure WorkerStartState where
  thread : Option Nat
  started : List Nat
  next : Nat
deriving DecidableEq, Repr

/-- Initial state: the closure has no `thread` attribute and no worker
thread has been started. -/
def initWorkerState : WorkerStartState := ⟨none, [], 0⟩

/-- Embedded from `app.py:106-110`: the body of `start_worker_thread` —
when the closure does not yet carry a `thread` attribute, create a thread,
start it, and memoize it on the closure; otherwise do nothing. -/
def start_worker_thread (s : WorkerStartState) : WorkerStartState :=
  match s.thread with
  | some _ => s
  | none => ⟨some s.next, s.started ++ [s.next], s.next + 1⟩

theorem start_worker_thread_fixed (s : WorkerStartState)
    (h : s.thread.isSome = true) : start_worker_thread s = s := by
  match hs : s.thread with
  | some k => rw [start_worker_thread, hs]
  | none => rw [hs] at h; exact absurd h (by simp)

theorem start_worker_thread_iterate_fixed (s : WorkerStartState)
    (h : s.thread.isSome = true) :
    ∀ n : Nat, start_worker_thread^[n] s = s := by
  intro n
  induction n with
  | zero => rfl
  | succ n ih =>
    rw [Function.iterate_succ_apply, start_worker_thread_fixed s h, ih]

/-- Claim C3: the background worker is started exactly once — a start
request on a state whose `thread` attribute is already set is a no-op, and
after any positive number of start requests from the initial state exactly
one worker thread (thread `0`) has ever been created and started. -/
theorem start_worker_once :
    (∀ s : WorkerStartState, s.thread.isSome = true →
      start_worker_thread s = s) ∧
    ∀ n : Nat,
      (start_worker_thread^[n + 1] initWorkerState).started = [0] := by
  constructor
  · exact start_worker_thread_fixed
  · intro n
    rw [Function.iterate_succ_apply]
    rw [show start_worker_thread initWorkerState =
      ⟨some 0, [0], 1⟩ from rfl]
    rw [start_worker_thread_iterate_fixed ⟨some 0, [0], 1⟩ rfl n]

theorem start_worker_once_witness :
    start_worker_thread ⟨some 0, [0], 1⟩ = ⟨some 0, [0], 1⟩ ∧
    (start_worker_thread^[3] initWorkerState).started = [0] :=
  ⟨start_worker_once.1 ⟨some 0, [0], 1⟩ rfl, start_worker_once.2 2⟩

/-- Application state relevant to shutdown in the wiring script: whether
the background worker thread is running, i.e. pulling jobs. -/
structure AppRunState where
  workerRunning : Bool
deriving DecidableEq, Repr

/-- Embedded from `app.py:117-120`: the shutdown hook body is `pass` — it
performs no action and leaves the application state unchanged. -/
def shutdown_event (s : AppRunState) : AppRunState := s

/-- Claim C4, counterexample: the claim asserts the shutdown handler causes
the worker to stop pulling new jobs; on a state with the worker running,
the handler leaves the worker running. -/
theorem shutdown_event_not_stopping :
    ¬ (shutdown_event ⟨true⟩).workerRunning = false := by
  decide

/-- Claim C4 (amended): the shutdown handler of the wiring script is a
no-op — its body is `pass`, so it neither stops the worker from pulling
new jobs nor waits for in-flight jobs; cooperative shutdown is not
implemented. -/
theorem shutdown_event_noop (s : AppRunState) : shutdown_event s = s := rfl

/-- Modelled from the spec: the IngestionJob states (§3): `Queued`,
`Running`, `Succeeded`, `Failed(reason)`. -/
inductive JobState
  | queued
  | running
  | succeeded
  | failed (reason : String)
deriving DecidableEq, Repr

/-- Modelled from the spec: terminal job states are immutable (§3). -/
def JobState.isTerminal : JobState → Bool
  | .succeeded => true
  | .failed _ => true
  | _ => false

/-- Position of a state along the job lifecycle, used to express
monotonicity. -/
def JobState.rank : JobState → Nat
  | .queued => 0
  | .running => 1
  | .succeeded => 2
  | .failed _ => 2

/-- Modelled from the spec: the job-state transition relation (§4.3) — a
worker dequeues a queued job and runs it, and a running job completes with
success or failure. -/
inductive JobStep : JobState → JobState → Prop
  | dequeue : JobStep .queued .running
  | succeed : JobStep .running .succeeded
  | fail (reason : String) : JobStep .running (.failed reason)

/-- Claim C7: every IngestionJob transition is monotone along
`Queued → Running → (Succeeded or Failed)`: each step strictly increases
the lifecycle rank and starts from a non-terminal state, every step is one
of the two lifecycle edges, and no transition leaves a terminal state. -/
theorem job_state_monotone :
    (∀ s t : JobState, JobStep s t →
      s.rank < t.rank ∧ s.isTerminal = false ∧
      ((s = .queued ∧ t = .running) ∨
       (s = .running ∧ (t = .succeeded ∨ ∃ r, t = .failed r)))) ∧
    ∀ s t : JobState, s.isTerminal = true → ¬ JobStep s t := by
  constructor
  · intro s t h
    cases h with
    | dequeue => exact ⟨by decide, rfl, Or.inl ⟨rfl, rfl⟩⟩
    | succeed => exact ⟨by decide, rfl, Or.inr ⟨rfl, Or.inl rfl⟩⟩
    | fail r =>
      exact ⟨by simp [JobState.rank], rfl, Or.inr ⟨rfl, Or.inr ⟨r, rfl⟩⟩⟩
  · intro s t hterm hstep
    cases hstep <;> simp [JobState.isTerminal] at hterm

theorem job_state_monotone_witness :
    JobState.queued.rank < JobState.running.rank ∧
    ¬ JobStep JobState.succeeded JobState.running :=
  ⟨(job_state_monotone.1 JobState.queued JobState.running JobStep.dequeue).1,
    job_state_monotone.2 JobState.succeeded JobState.running rfl⟩

/-- One construction step of the wiring script `app.py`, in source order. -/
inductive WiringEvent
  | loadConfig
  | mkEmbeddingsProvider
  | mkVectorDB
  | initCollection (name : String) (dim : Nat)
  | mkLLM
  | mkRAGPipeline
  | mkTextSplitter
  | mkDatasetProvider
  | mkEmbeddingPipeline
  | mkHatchet
  | mkWorker
  | mkApp
deriving DecidableEq, Repr

/-- Embedded from `app.py:24-98`: the module-level statements of the
wiring script in their source order, parametrised by the configured
collection name and embedding dimension
(`db.initialize_collection(collection_name, embedding_dimension)` at
`app.py:46`). -/
def appStartupTrace (collection_name : String) (embedding_dimension : Nat) :
    List WiringEvent :=
  [.loadConfig, .mkEmbeddingsProvider, .mkVectorDB,
   .initCollection collection_name embedding_dimension, .mkLLM,
   .mkRAGPipeline, .mkTextSplitter, .mkDatasetProvider,
   .mkEmbeddingPipeline, .mkHatchet, .mkWorker, .mkApp]

def isInitCollection : WiringEvent → Bool
  | .initCollection _ _ => true
  | _ => false

/-- Claim C10: in the startup sequence of the wiring script, the vector
store collection is initialized exactly once, with the name and the
dimension taken from the configuration, and this initialization precedes
the construction of the RAG pipeline, the embedding pipeline, the worker
and the web app, so every later component sees an already-initialized
collection of that dimension. -/
theorem startup_initializes_collection_once (cn : String) (dim : Nat) :
    (appStartupTrace cn dim).countP isInitCollection = 1 ∧
    (appStartupTrace cn dim).filter isInitCollection =
      [WiringEvent.initCollection cn dim] ∧
    (appStartupTrace cn dim).findIdx isInitCollection <
      (appStartupTrace cn dim).findIdx (· = WiringEvent.mkRAGPipeline) ∧
    (appStartupTrace cn dim).findIdx isInitCollection <
      (appStartupTrace cn dim).findIdx (· = WiringEvent.mkEmbeddingPipeline) ∧
    (appStartupTrace cn dim).findIdx isInitCollection <
      (appStartupTrace cn dim).findIdx (· = WiringEvent.mkWorker) ∧
    (appStartupTrace cn dim).findIdx isInitCollection <
      (appStartupTrace cn dim).findIdx (· = WiringEvent.mkApp) := by
  refine ⟨rfl, rfl, ?_, ?_, ?_, ?_⟩ <;>
    simp [appStartupTrace, isInitCollection, List.findIdx, List.findIdx.go]

end R2R
